import Mathlib

set_option maxRecDepth 8000
set_option maxHeartbeats 1000000

/-!
Verification development for the TypeScript comment-format fixer
(`ts-comment-fixer.py`, with the simpler variant `fix_ts_comments.py`).

Text is modelled as `List Char`.  Each regex substitution of
`CommentFixer.fix_file` is embedded as an executable function whose
leftmost, greedy, non-overlapping behaviour is derived by hand from the
concrete pattern (all quantifiers in these patterns are over pairwise
disjoint character classes at every branch point, so Python's
backtracking search is deterministic and equals the maximal-run scan
implemented here).  File effects are modelled by explicit state passing
over a map from paths to optional contents.
-/

/-- Python regex class `\s` on `str` patterns: the `str.isspace` code points. -/
def isWs (c : Char) : Bool :=
  let n := c.toNat
  n == 0x20 || n == 0x9 || n == 0xa || n == 0xb || n == 0xc || n == 0xd ||
  n == 0x1c || n == 0x1d || n == 0x1e || n == 0x1f || n == 0x85 || n == 0xa0 ||
  n == 0x1680 || n == 0x2000 || n == 0x2001 || n == 0x2002 || n == 0x2003 ||
  n == 0x2004 || n == 0x2005 || n == 0x2006 || n == 0x2007 || n == 0x2008 ||
  n == 0x2009 || n == 0x200a || n == 0x2028 ||
  n == 0x2029 || n == 0x202f || n == 0x205f || n == 0x3000

/-- Regex class `[A-Z0-9 _-]` of patterns 2 and 4 (uppercase, digit, space, underscore, hyphen). -/
def isTitleChar (c : Char) : Bool :=
  c.isUpper || c.isDigit || c == ' ' || c == '_' || c == '-'

/-- Regex class `[A-Za-z]` of pattern 3. -/
def isLetterAZ (c : Char) : Bool :=
  c.isUpper || c.isLower

/-- Split a text on newline characters, exactly like Python `text.split('\n')`
(and like the segment structure that `re.MULTILINE` anchors `^`/`$` induce). -/
def splitNl : List Char → List (List Char)
  | [] => [[]]
  | c :: r =>
    if c = '\n' then [] :: splitNl r
    else
      match splitNl r with
      | [] => [[c]]
      | l :: ls => (c :: l) :: ls

/-- Join lines with newline characters, like Python `'\n'.join(lines)`. -/
def joinNl : List (List Char) → List Char
  | [] => []
  | [l] => l
  | l :: ls => l ++ '\n' :: joinNl ls

/-- Python `line.startswith('/') and not line.startswith('//')`, which is also
exactly the line condition of pattern 1, `^\/(?!\/)(.*)$` in multiline mode. -/
def singleSlashLine (l : List Char) : Bool :=
  match l with
  | [] => false
  | c :: r =>
    if c = '/' then
      match r with
      | [] => true
      | d :: _ => if d = '/' then false else true
    else false

/-- A line that starts with a doubled slash. -/
def doubleSlashLine (l : List Char) : Bool :=
  match l with
  | c :: d :: _ => if c = '/' ∧ d = '/' then true else false
  | _ => false

/-- Pattern 1 of `ts-comment-fixer.py`, `re.sub(r'^\/(?!\/)(.*)$', r'//\1', ...)`
with `re.MULTILINE`, acting on one line: a line-leading single slash is doubled
(the replacement `//` followed by group 1 is the original line with one more
leading slash). -/
def pattern1Line (l : List Char) : List Char :=
  if singleSlashLine l then '/' :: '/' :: l.drop 1 else l

/-- Pattern 1 (`standalone_slashes`): the substitution over the whole text
together with the match count (`len(pattern1.findall(content))`).  The pattern
is line-local because `.` does not match a newline and `$` stops before one. -/
def pattern1 (cs : List Char) : List Char × Nat :=
  let ls := splitNl cs
  (joinNl (ls.map pattern1Line), ls.countP singleSlashLine)

/-- Line condition of pattern 4, `^([A-Z][A-Z0-9 _-]{5,})$`: the whole line is
an uppercase letter followed by at least five title-class characters. -/
def nakedHeaderLine : List Char → Bool
  | c :: r => c.isUpper && decide (5 ≤ r.length) && r.all isTitleChar
  | [] => false

/-- Pattern 4 (`naked_headers`): `re.sub(r'^([A-Z][A-Z0-9 _-]{5,})$', r'// \1', ...)`. -/
def pattern4 (cs : List Char) : List Char × Nat :=
  let ls := splitNl cs
  (joinNl (ls.map fun l => if nakedHeaderLine l then '/' :: '/' :: ' ' :: l else l),
   ls.countP nakedHeaderLine)

/-- Line condition of pattern 5, `^(=+)$`: a nonempty line of equals signs only. -/
def dividerLine (l : List Char) : Bool :=
  !l.isEmpty && l.all (· == '=')

/-- Pattern 5 (`section_dividers`): `re.sub(r'^(=+)$', r'// \1', ...)`. -/
def pattern5 (cs : List Char) : List Char × Nat :=
  let ls := splitNl cs
  (joinNl (ls.map fun l => if dividerLine l then '/' :: '/' :: ' ' :: l else l),
   ls.countP dividerLine)

/-- One match attempt of pattern 2,
`(\/\/\s*=+)\s*\n([A-Z][A-Z0-9 _-]+)\s*\n(\/\/\s*=+)`, at the head of the
text.  Returns the replacement text `\1\n// \2\n\3` and the remainder after
the match.  Because `\s`, `=` and the title class only overlap on the space
character, the greedy search is deterministic: each `\s*`/`=+`/class-run is
the maximal run, the glue `\s*\n` succeeds exactly when the whitespace run is
consumed entirely and ends with a newline. -/
def pattern2match (cs : List Char) : Option (List Char × List Char) :=
  match cs with
  | a :: b :: r1 =>
    if ¬(a = '/' ∧ b = '/') then none else
    let w1 := r1.takeWhile isWs
    let r2 := r1.dropWhile isWs
    let e1 := r2.takeWhile (· == '=')
    let r3 := r2.dropWhile (· == '=')
    if e1.isEmpty then none else
    let v1 := r3.takeWhile isWs
    let r4 := r3.dropWhile isWs
    if v1.getLast? ≠ some '\n' then none else
    match r4 with
    | c :: r5 =>
      if ¬c.isUpper then none else
      let t := r5.takeWhile isTitleChar
      let r6 := r5.dropWhile isTitleChar
      if t.isEmpty then none else
      let v2 := r6.takeWhile isWs
      let r7 := r6.dropWhile isWs
      if v2.getLast? ≠ some '\n' then none else
      match r7 with
      | a3 :: b3 :: r8 =>
        if ¬(a3 = '/' ∧ b3 = '/') then none else
        let w3 := r8.takeWhile isWs
        let r9 := r8.dropWhile isWs
        let e3 := r9.takeWhile (· == '=')
        let r10 := r9.dropWhile (· == '=')
        if e3.isEmpty then none else
        some (('/' :: '/' :: (w1 ++ e1)) ++
              '\n' :: '/' :: '/' :: ' ' :: ((c :: t) ++
              '\n' :: '/' :: '/' :: (w3 ++ e3)), r10)
      | _ => none
    | [] => none
  | _ => none

/-- One step of the pattern 2 scan: replace a match at the current position
and continue after it, or emit one character and continue. -/
def pattern2step (recur : List Char → List Char × Nat) (cs : List Char) :
    List Char × Nat :=
  match pattern2match cs with
  | some (repl, rest) =>
    let p := recur rest
    (repl ++ p.1, p.2 + 1)
  | none =>
    match cs with
    | [] => ([], 0)
    | c :: r =>
      let p := recur r
      (c :: p.1, p.2)

/-- Fuelled scan of pattern 2 over the text: leftmost matches, each replaced,
scanning resuming after the match (Python `re.sub` semantics). -/
def pattern2scanF : Nat → List Char → List Char × Nat
  | 0, cs => (cs, 0)
  | fuel + 1, cs => pattern2step (pattern2scanF fuel) cs

/-- Pattern 2 (`multiline_sections`): full substitution plus match count. -/
def pattern2 (cs : List Char) : List Char × Nat :=
  pattern2scanF cs.length cs

/-- One match attempt of pattern 3, `(\s+)\/(\s+[A-Za-z])`, at the head of the
text.  Returns the matched pieces: group 1 (nonempty whitespace), the
whitespace of group 2, the letter ending group 2, and the remainder. -/
def pattern3match (cs : List Char) : Option (List Char × List Char × Char × List Char) :=
  let w1 := cs.takeWhile isWs
  if w1.isEmpty then none else
  match cs.dropWhile isWs with
  | s :: r2 =>
    if ¬s = '/' then none else
    let w2 := r2.takeWhile isWs
    if w2.isEmpty then none else
    match r2.dropWhile isWs with
    | c :: r4 => if isLetterAZ c then some (w1, w2, c, r4) else none
    | [] => none
  | [] => none

/-- One step of the pattern 3 scan; at a match the replacement `\1//\2` is
emitted (group 1, doubled slash, group 2). -/
def pattern3step (recur : List Char → List Char × Nat) (cs : List Char) :
    List Char × Nat :=
  match pattern3match cs with
  | some (w1, w2, c, r4) =>
    let p := recur r4
    (w1 ++ '/' :: '/' :: (w2 ++ c :: p.1), p.2 + 1)
  | none =>
    match cs with
    | [] => ([], 0)
    | d :: r =>
      let p := recur r
      (d :: p.1, p.2)

/-- Fuelled scan of pattern 3 over the text. -/
def pattern3scanF : Nat → List Char → List Char × Nat
  | 0, cs => (cs, 0)
  | fuel + 1, cs => pattern3step (pattern3scanF fuel) cs

/-- Pattern 3 (`object_comments`): full substitution plus match count. -/
def pattern3 (cs : List Char) : List Char × Nat :=
  pattern3scanF cs.length cs

/-- One match attempt of pattern 6, `^\/(\s*=+)` in multiline mode, valid only
at a line start.  Returns the replacement `//\1` and the remainder. -/
def pattern6match (cs : List Char) : Option (List Char × List Char) :=
  match cs with
  | s :: r =>
    if ¬s = '/' then none else
    let w := r.takeWhile isWs
    let r2 := r.dropWhile isWs
    let e := r2.takeWhile (· == '=')
    let r3 := r2.dropWhile (· == '=')
    if e.isEmpty then none else some ('/' :: '/' :: (w ++ e), r3)
  | [] => none

/-- One step of the pattern 6 scan.  The Boolean tracks whether the current
position is a line start (string start or just after a newline); matches are
attempted only there, mirroring the `^` anchor.  A match ends in `=`, so the
scan resumes in mid-line state. -/
def pattern6step (recur : Bool → List Char → List Char × Nat) (atStart : Bool)
    (cs : List Char) : List Char × Nat :=
  if atStart then
    match pattern6match cs with
    | some (repl, rest) =>
      let p := recur false rest
      (repl ++ p.1, p.2 + 1)
    | none =>
      match cs with
      | [] => ([], 0)
      | c :: r =>
        let p := recur (c == '\n') r
        (c :: p.1, p.2)
  else
    match cs with
    | [] => ([], 0)
    | c :: r =>
      let p := recur (c == '\n') r
      (c :: p.1, p.2)

/-- Fuelled scan of pattern 6 over the text. -/
def pattern6scanF : Nat → Bool → List Char → List Char × Nat
  | 0, _, cs => (cs, 0)
  | fuel + 1, b, cs => pattern6step (pattern6scanF fuel) b cs

/-- Pattern 6 scan from a given line-start state. -/
def pattern6run (b : Bool) (cs : List Char) : List Char × Nat :=
  pattern6scanF cs.length b cs

/-- Pattern 6 (`section_headers`): full substitution plus match count. -/
def pattern6 (cs : List Char) : List Char × Nat :=
  pattern6run true cs

/-- The `fix_counts` dictionary of `CommentFixer.fix_file`: its nine fixed
keys, each a count of substitutions. -/
structure FixTally where
  section_headers : Nat
  section_titles : Nat
  object_comments : Nat
  naked_headers : Nat
  section_dividers : Nat
  multiline_sections : Nat
  mixed_slash_headers : Nat
  standalone_slashes : Nat
  total : Nat
deriving DecidableEq

/-- The all-zero tally `{k: 0 for k in fix_counts}`. -/
def zeroTally : FixTally :=
  ⟨0, 0, 0, 0, 0, 0, 0, 0, 0⟩

/-- Field-wise sum of two tallies (additive merge). -/
def addTally (a b : FixTally) : FixTally :=
  ⟨a.section_headers + b.section_headers,
   a.section_titles + b.section_titles,
   a.object_comments + b.object_comments,
   a.naked_headers + b.naked_headers,
   a.section_dividers + b.section_dividers,
   a.multiline_sections + b.multiline_sections,
   a.mixed_slash_headers + b.mixed_slash_headers,
   a.standalone_slashes + b.standalone_slashes,
   a.total + b.total⟩

/-- The rewrite pipeline of `CommentFixer.fix_file` (lines 59 to 107): one
sequential application of the full catalog — pattern 1 applied twice
(lines 61 to 71), then patterns 2, 3, 4, 5 once each, then pattern 6 three
times (the `for i in range(3)` loop), each on the previous output; the tally
accumulates the per-application counts and `total` is the sum of the other
eight fields (line 107). -/
def fixPipeline (cs : List Char) : List Char × FixTally :=
  let s1 := pattern1 cs
  let s1a := pattern1 s1.1
  let s2 := pattern2 s1a.1
  let s3 := pattern3 s2.1
  let s4 := pattern4 s3.1
  let s5 := pattern5 s4.1
  let s6a := pattern6 s5.1
  let s6b := pattern6 s6a.1
  let s6c := pattern6 s6b.1
  (s6c.1,
   { section_headers := s6a.2 + s6b.2 + s6c.2
     section_titles := 0
     object_comments := s3.2
     naked_headers := s4.2
     section_dividers := s5.2
     multiline_sections := s2.2
     mixed_slash_headers := 0
     standalone_slashes := s1.2 + s1a.2
     total := (s6a.2 + s6b.2 + s6c.2) + 0 + s3.2 + s4.2 + s5.2 + s2.2 + 0 +
       (s1.2 + s1a.2) })

/-- File paths, abstracted to natural numbers. -/
abbrev FPath := Nat

/-- A file-system state: contents of each path, `none` when unreadable. -/
def FS := FPath → Option (List Char)

/-- Point update of a file-system state. -/
def fsUpdate (fs : FS) (p : FPath) (c : List Char) : FS :=
  fun q => if q = p then some c else fs q

/-- Observable outcome of one `fix_file` call.  `raisedUnboundLocal` models
the exception that escapes `fix_file` when the read fails: the `except`
handler evaluates `{k: 0 for k in fix_counts.keys()}` (line 122) but
`fix_counts` is only assigned after the read (line 47), so the handler itself
raises `UnboundLocalError`.  `ok wasFixed tally writeFailed` models a normal
return `(file_path, wasFixed, tally)`; `writeFailed` records that the
`except` branch ran after a failed write (error logged, zero tally
returned). -/
inductive PyOutcome where
  | raisedUnboundLocal : PyOutcome
  | ok : Bool → FixTally → Bool → PyOutcome
deriving DecidableEq

/-- `CommentFixer.fix_file` as a state function.  `crash = some k` injects a
failure during the write after `k` characters: the code opens the file with
mode `'w'` (truncating it in place, lines 111 to 112) and writes the new
content, so an interrupted write leaves the first `k` characters of the NEW
content on disk.  `crash = none` means the write succeeds. -/
def fixFile (dryRun : Bool) (crash : Option Nat) (fs : FS) (p : FPath) :
    FS × PyOutcome :=
  match fs p with
  | none => (fs, .raisedUnboundLocal)
  | some content =>
    let r := fixPipeline content
    if r.1 = content then (fs, .ok false zeroTally false)
    else if dryRun then (fs, .ok false r.2 false)
    else
      match crash with
      | none => (fsUpdate fs p r.1, .ok true r.2 false)
      | some k => (fsUpdate fs p (r.1.take k), .ok false zeroTally true)

/-- `CommentFixer.process_directory`'s collection loop (lines 149 to 163):
results are collected per file, but an exception re-raised by
`future.result()` propagates and aborts the whole batch, which `.error ()`
models. -/
def processDirectory (dryRun : Bool) (fs : FS) :
    List FPath → Except Unit (FS × List (FPath × Bool × FixTally))
  | [] => .ok (fs, [])
  | p :: ps =>
    match fixFile dryRun none fs p with
    | (_, .raisedUnboundLocal) => .error ()
    | (fs', .ok w t _) =>
      match processDirectory dryRun fs' ps with
      | .ok (fs'', l) => .ok (fs'', (p, w, t) :: l)
      | .error e => .error e

/-- The force-mode text transformation of `main` (lines 279 to 288): every
line that starts with a single slash not already doubled gets one extra
leading slash; the count of such lines is `direct_fixes`. -/
def forceTransform (cs : List Char) : List Char × Nat :=
  let ls := splitNl cs
  (joinNl (ls.map fun l => if singleSlashLine l then '/' :: l else l),
   ls.countP singleSlashLine)

/-- The force-mode block of `main` (lines 273 to 296) as a state function:
reads the file (a read failure is caught and only printed: no write), and
writes the transformed content back only when `direct_fixes > 0` and not in
dry-run mode.  `crash` injects a failure during that write as in `fixFile`. -/
def forceMode (dryRun : Bool) (crash : Option Nat) (fs : FS) (p : FPath) :
    FS × Option Nat :=
  match fs p with
  | none => (fs, none)
  | some content =>
    let r := forceTransform content
    if 0 < r.2 ∧ ¬dryRun then
      match crash with
      | none => (fsUpdate fs p r.1, some r.2)
      | some k => (fsUpdate fs p (r.1.take k), some r.2)
    else (fs, some r.2)

/-- Modelled from the spec: the Convergence Driver of section 4.3, which the
repository's code does not contain (claim C6 asserts `fix_file` implements
it).  It repeatedly applies the full catalog (one `fixPipeline` pass) until a
pass makes zero total substitutions or the cap of 3 iterations is reached,
merging tallies additively. -/
def normalizeDriver (cs : List Char) : List Char × FixTally :=
  let r1 := fixPipeline cs
  if r1.2.total = 0 then r1 else
  let r2 := fixPipeline r1.1
  if r2.2.total = 0 then (r2.1, addTally r1.2 r2.2) else
  let r3 := fixPipeline r2.1
  (r3.1, addTally (addTally r1.2 r2.2) r3.2)

/-- A text has no pattern 3 site exposed at its first nonblank position:
if the first non-whitespace character is a slash, it is not followed by
whitespace and a letter.  For whitespace-preceded positions this is exactly
what `pattern3match` tests. -/
def slashSiteFree (zs : List Char) : Prop :=
  match zs with
  | s :: r2 =>
    s = '/' → ((r2.takeWhile isWs).isEmpty = true ∨
      ∀ d, (r2.dropWhile isWs).head? = some d → isLetterAZ d = false)
  | [] => True

/-- The line-start state after scanning past a list of characters. -/
def lineState (b : Bool) (xs : List Char) : Bool :=
  match xs.getLast? with
  | none => b
  | some a => a == '\n'


/-- Concrete inputs used in the counterexamples and scenario checks. -/
def exIdem : List Char := ("// ===\nTITLE\n===\n" : String).data

def exScenario1 : List Char := ("/ === SECTION ===\n" : String).data

def exScenario2 : List Char := ("/ === \nTITLE\n// ===\n" : String).data

def exPattern2 : List Char :=
  ("// ===\nAAAAAA\n// ===\nBBBBBB\n// ===\n" : String).data

def exForce : List Char := ("/a\n//b" : String).data

def exOldContent : List Char := ("/x\n" : String).data

/-- A file system with one readable file (path 0) holding `exOldContent`. -/
def fsC3 : FS := fun p => if p = 0 then some exOldContent else none

/-- A file system where path 0 is unreadable and path 1 is readable. -/
def fsC2 : FS := fun p => if p = 1 then some (("// ok\n" : String).data) else none

/-- A file system with one readable empty file at path 0. -/
def fsC10 : FS := fun _ => some []


/-! ### Basic list lemmas -/

theorem takeWhile_append_of_all {p : Char → Bool} {xs : List Char}
    (h : ∀ a ∈ xs, p a = true) (ys : List Char) :
    (xs ++ ys).takeWhile p = xs ++ ys.takeWhile p := by
  induction xs with
  | nil => simp
  | cons a l ih =>
    have ha : p a = true := h a (List.mem_cons_self a l)
    simp [List.takeWhile_cons, ha, ih fun b hb => h b (List.mem_cons_of_mem a hb)]

theorem dropWhile_append_of_all {p : Char → Bool} {xs : List Char}
    (h : ∀ a ∈ xs, p a = true) (ys : List Char) :
    (xs ++ ys).dropWhile p = ys.dropWhile p := by
  induction xs with
  | nil => simp
  | cons a l ih =>
    have ha : p a = true := h a (List.mem_cons_self a l)
    simp [List.dropWhile_cons, ha, ih fun b hb => h b (List.mem_cons_of_mem a hb)]

theorem takeWhile_cons_of_neg {p : Char → Bool} {a : Char} (h : p a = false)
    (l : List Char) : (a :: l).takeWhile p = [] := by
  simp [List.takeWhile_cons, h]

theorem dropWhile_cons_of_neg {p : Char → Bool} {a : Char} (h : p a = false)
    (l : List Char) : (a :: l).dropWhile p = a :: l := by
  simp [List.dropWhile_cons, h]

theorem suffix_append_cases {t xs ys : List Char} (h : t <:+ xs ++ ys) :
    t <:+ ys ∨ ∃ u, u <:+ xs ∧ u ≠ [] ∧ t = u ++ ys := by
  induction xs with
  | nil => exact Or.inl (by simpa using h)
  | cons a l ih =>
    rcases List.suffix_cons_iff.mp h with h | h
    · exact Or.inr ⟨a :: l, List.suffix_refl _, by simp, by simpa using h⟩
    · rcases ih h with h | ⟨u, hu, hne, ht⟩
      · exact Or.inl h
      · exact Or.inr ⟨u, hu.trans (List.suffix_cons a l), hne, ht⟩

/-! ### Lemmas about `splitNl` and `joinNl` -/

theorem splitNl_ne_nil (cs : List Char) : splitNl cs ≠ [] := by
  cases cs with
  | nil => simp [splitNl]
  | cons c r =>
    simp only [splitNl]
    split
    · simp
    · split <;> simp

theorem noNl_of_mem_splitNl {cs : List Char} {l : List Char}
    (h : l ∈ splitNl cs) : '\n' ∉ l := by
  induction cs generalizing l with
  | nil =>
    simp [splitNl] at h
    subst h; simp
  | cons c r ih =>
    simp only [splitNl] at h
    split at h
    · rcases List.mem_cons.mp h with h | h
      · subst h; simp
      · exact ih h
    · rename_i hc
      cases hsp : splitNl r with
      | nil => exact absurd hsp (splitNl_ne_nil r)
      | cons l0 ls =>
        rw [hsp] at h
        rcases List.mem_cons.mp h with h | h
        · subst h
          intro hm
          rcases List.mem_cons.mp hm with hm | hm
          · exact hc hm.symm
          · exact ih (hsp ▸ List.mem_cons_self l0 ls) hm
        · exact ih (hsp ▸ List.mem_cons_of_mem l0 h)

theorem joinNl_splitNl (cs : List Char) : joinNl (splitNl cs) = cs := by
  induction cs with
  | nil => rfl
  | cons c r ih =>
    simp only [splitNl]
    split
    · rename_i hc
      subst hc
      cases hsp : splitNl r with
      | nil => exact absurd hsp (splitNl_ne_nil r)
      | cons l0 ls =>
        rw [hsp] at ih
        simpa [joinNl] using ih
    · cases hsp : splitNl r with
      | nil => exact absurd hsp (splitNl_ne_nil r)
      | cons l0 ls =>
        rw [hsp] at ih
        cases ls with
        | nil => simpa [joinNl] using ih
        | cons m ms => simpa [joinNl] using ih

theorem splitNl_of_noNl {l : List Char} (h : '\n' ∉ l) : splitNl l = [l] := by
  induction l with
  | nil => rfl
  | cons c r ih =>
    have hc : c ≠ '\n' := fun he => h (he ▸ List.mem_cons_self c r)
    have hr : '\n' ∉ r := fun hm => h (List.mem_cons_of_mem c hm)
    simp only [splitNl]
    rw [if_neg hc, ih hr]

theorem splitNl_append_nl {l t : List Char} (h : '\n' ∉ l) :
    splitNl (l ++ '\n' :: t) = l :: splitNl t := by
  induction l with
  | nil => simp [splitNl]
  | cons c r ih =>
    have hc : c ≠ '\n' := fun he => h (he ▸ List.mem_cons_self c r)
    have hr : '\n' ∉ r := fun hm => h (List.mem_cons_of_mem c hm)
    have hstep : splitNl ((c :: r) ++ '\n' :: t) =
        match splitNl (r ++ '\n' :: t) with
        | [] => [[c]]
        | l0 :: ls => (c :: l0) :: ls := by
      rw [List.cons_append]
      simp only [splitNl]
      rw [if_neg hc]
    rw [hstep, ih hr]

theorem splitNl_joinNl {ls : List (List Char)} (h : ls ≠ [])
    (h2 : ∀ l ∈ ls, '\n' ∉ l) : splitNl (joinNl ls) = ls := by
  induction ls with
  | nil => exact absurd rfl h
  | cons l0 rest ih =>
    cases rest with
    | nil =>
      simpa [joinNl] using splitNl_of_noNl (h2 l0 (List.mem_cons_self _ _))
    | cons m ms =>
      have : joinNl (l0 :: m :: ms) = l0 ++ '\n' :: joinNl (m :: ms) := rfl
      rw [this, splitNl_append_nl (h2 l0 (List.mem_cons_self _ _)),
        ih (by simp) fun l hl => h2 l (List.mem_cons_of_mem _ hl)]

/-! ### Local idempotence of the line-based patterns 1, 4 and 5 -/

theorem pattern1Line_no_hit (l : List Char) :
    singleSlashLine (pattern1Line l) = false := by
  rcases l with _ | ⟨c0, r⟩
  · rfl
  · by_cases h0 : c0 = '/'
    · subst h0
      rcases r with _ | ⟨c1, r'⟩
      · rfl
      · by_cases h1 : c1 = '/'
        · subst h1
          simp [pattern1Line, singleSlashLine]
        · simp [pattern1Line, singleSlashLine, h1]
    · simp [pattern1Line, singleSlashLine, h0]

theorem pattern1Line_of_no_hit {l : List Char} (h : singleSlashLine l = false) :
    pattern1Line l = l := by
  simp [pattern1Line, h]

theorem noNl_pattern1Line {l : List Char} (h : '\n' ∉ l) : '\n' ∉ pattern1Line l := by
  unfold pattern1Line
  split
  · intro hm
    rcases List.mem_cons.mp hm with hm | hm
    · exact absurd hm.symm (by decide)
    · rcases List.mem_cons.mp hm with hm | hm
      · exact absurd hm.symm (by decide)
      · exact h (List.mem_of_mem_drop hm)
  · exact h

theorem splitNl_map_line (g : List Char → List Char)
    (hg : ∀ l, '\n' ∉ l → '\n' ∉ g l) (cs : List Char) :
    splitNl (joinNl ((splitNl cs).map g)) = (splitNl cs).map g := by
  refine splitNl_joinNl ?_ ?_
  · intro hmap
    exact splitNl_ne_nil cs (List.map_eq_nil_iff.mp hmap)
  · intro l hl
    rcases List.mem_map.mp hl with ⟨l0, hl0, rfl⟩
    exact hg l0 (noNl_of_mem_splitNl hl0)

theorem pattern1_idem (cs : List Char) :
    pattern1 (pattern1 cs).1 = ((pattern1 cs).1, 0) := by
  have hsp : splitNl (pattern1 cs).1 = (splitNl cs).map pattern1Line :=
    splitNl_map_line pattern1Line (fun l => noNl_pattern1Line) cs
  show (joinNl ((splitNl (pattern1 cs).1).map pattern1Line),
        (splitNl (pattern1 cs).1).countP singleSlashLine) = ((pattern1 cs).1, 0)
  rw [hsp, List.map_map]
  have hcomp : pattern1Line ∘ pattern1Line = pattern1Line := by
    funext l
    exact pattern1Line_of_no_hit (pattern1Line_no_hit l)
  rw [hcomp]
  simp only [Prod.mk.injEq]
  refine ⟨rfl, ?_⟩
  rw [List.countP_eq_zero]
  intro l hl
  rcases List.mem_map.mp hl with ⟨l0, _, rfl⟩
  simp [pattern1Line_no_hit l0]

theorem nakedHeaderLine_no_hit (l : List Char) :
    nakedHeaderLine (if nakedHeaderLine l then '/' :: '/' :: ' ' :: l else l) = false := by
  by_cases h : nakedHeaderLine l = true
  · simp only [h, if_true]
    simp [nakedHeaderLine]
  · simp only [Bool.not_eq_true] at h
    simp [h]

theorem noNl_nakedHeaderLineMap {l : List Char} (h : '\n' ∉ l) :
    '\n' ∉ (if nakedHeaderLine l then '/' :: '/' :: ' ' :: l else l) := by
  split
  · intro hm
    rcases List.mem_cons.mp hm with hm | hm
    · exact absurd hm.symm (by decide)
    rcases List.mem_cons.mp hm with hm | hm
    · exact absurd hm.symm (by decide)
    rcases List.mem_cons.mp hm with hm | hm
    · exact absurd hm.symm (by decide)
    · exact h hm
  · exact h

theorem pattern4_idem (cs : List Char) :
    pattern4 (pattern4 cs).1 = ((pattern4 cs).1, 0) := by
  have hsp : splitNl (pattern4 cs).1 =
      (splitNl cs).map (fun l => if nakedHeaderLine l then '/' :: '/' :: ' ' :: l else l) :=
    splitNl_map_line _ (fun l => noNl_nakedHeaderLineMap) cs
  show (joinNl ((splitNl (pattern4 cs).1).map
          (fun l => if nakedHeaderLine l then '/' :: '/' :: ' ' :: l else l)),
        (splitNl (pattern4 cs).1).countP nakedHeaderLine) = ((pattern4 cs).1, 0)
  rw [hsp, List.map_map]
  have hcomp : ((fun l => if nakedHeaderLine l then '/' :: '/' :: ' ' :: l else l) ∘
      (fun l => if nakedHeaderLine l then '/' :: '/' :: ' ' :: l else l)) =
      (fun l => if nakedHeaderLine l then '/' :: '/' :: ' ' :: l else l) := by
    funext l
    simp only [Function.comp_apply]
    rw [if_neg (by rw [nakedHeaderLine_no_hit l]; exact fun h => Bool.noConfusion h)]
  rw [hcomp]
  simp only [Prod.mk.injEq]
  refine ⟨rfl, ?_⟩
  rw [List.countP_eq_zero]
  intro l hl
  rcases List.mem_map.mp hl with ⟨l0, _, rfl⟩
  simp [nakedHeaderLine_no_hit l0]

theorem dividerLine_no_hit (l : List Char) :
    dividerLine (if dividerLine l then '/' :: '/' :: ' ' :: l else l) = false := by
  by_cases h : dividerLine l = true
  · simp only [h, if_true]
    simp [dividerLine]
  · simp only [Bool.not_eq_true] at h
    simp [h]

theorem noNl_dividerLineMap {l : List Char} (h : '\n' ∉ l) :
    '\n' ∉ (if dividerLine l then '/' :: '/' :: ' ' :: l else l) := by
  split
  · intro hm
    rcases List.mem_cons.mp hm with hm | hm
    · exact absurd hm.symm (by decide)
    rcases List.mem_cons.mp hm with hm | hm
    · exact absurd hm.symm (by decide)
    rcases List.mem_cons.mp hm with hm | hm
    · exact absurd hm.symm (by decide)
    · exact h hm
  · exact h

theorem pattern5_idem (cs : List Char) :
    pattern5 (pattern5 cs).1 = ((pattern5 cs).1, 0) := by
  have hsp : splitNl (pattern5 cs).1 =
      (splitNl cs).map (fun l => if dividerLine l then '/' :: '/' :: ' ' :: l else l) :=
    splitNl_map_line _ (fun l => noNl_dividerLineMap) cs
  show (joinNl ((splitNl (pattern5 cs).1).map
          (fun l => if dividerLine l then '/' :: '/' :: ' ' :: l else l)),
        (splitNl (pattern5 cs).1).countP dividerLine) = ((pattern5 cs).1, 0)
  rw [hsp, List.map_map]
  have hcomp : ((fun l => if dividerLine l then '/' :: '/' :: ' ' :: l else l) ∘
      (fun l => if dividerLine l then '/' :: '/' :: ' ' :: l else l)) =
      (fun l => if dividerLine l then '/' :: '/' :: ' ' :: l else l) := by
    funext l
    simp only [Function.comp_apply]
    rw [if_neg (by rw [dividerLine_no_hit l]; exact fun h => Bool.noConfusion h)]
  rw [hcomp]
  simp only [Prod.mk.injEq]
  refine ⟨rfl, ?_⟩
  rw [List.countP_eq_zero]
  intro l hl
  rcases List.mem_map.mp hl with ⟨l0, _, rfl⟩
  simp [dividerLine_no_hit l0]

/-! ### Recursion equations for the pattern 3 scanner -/

theorem dropWhile_eq_cons_head {p : Char → Bool} {l : List Char} {a : Char}
    {t : List Char} (h : l.dropWhile p = a :: t) : p a = false := by
  induction l with
  | nil => exact absurd h (by simp)
  | cons b r ih =>
    rw [List.dropWhile_cons] at h
    split at h
    · exact ih h
    · rename_i hb
      obtain ⟨rfl, -⟩ := List.cons.injEq b r a t ▸ h
      simpa using hb

theorem pattern3match_some {cs : List Char} {w1 w2 : List Char} {c : Char}
    {r4 : List Char} (h : pattern3match cs = some (w1, w2, c, r4)) :
    cs = w1 ++ '/' :: (w2 ++ c :: r4) ∧ w1 ≠ [] ∧ (∀ a ∈ w1, isWs a = true) ∧
      w2 ≠ [] ∧ (∀ a ∈ w2, isWs a = true) ∧ isLetterAZ c = true ∧
      isWs c = false := by
  simp only [pattern3match] at h
  split at h
  · exact absurd h (by simp)
  · rename_i hw1
    split at h
    · rename_i s r2 hdrop
      split at h
      · exact absurd h (by simp)
      · rename_i hs
        rw [Classical.not_not] at hs
        split at h
        · exact absurd h (by simp)
        · rename_i hw2
          split at h
          · rename_i c' r4' hdrop2
            split at h
            · rename_i hc
              simp only [Option.some.injEq, Prod.mk.injEq] at h
              obtain ⟨h1, h2, h3, h4⟩ := h
              subst h1; subst h2; subst h3; subst h4
              subst hs
              refine ⟨?_, ?_, ?_, ?_, ?_, hc, dropWhile_eq_cons_head hdrop2⟩
              · conv_lhs => rw [← List.takeWhile_append_dropWhile isWs cs]
                rw [hdrop]
                congr 1
                congr 1
                conv_lhs => rw [← List.takeWhile_append_dropWhile isWs r2]
                rw [hdrop2]
              · simpa using hw1
              · intro a ha; exact List.mem_takeWhile_imp ha
              · simpa using hw2
              · intro a ha; exact List.mem_takeWhile_imp ha
            · exact absurd h (by simp)
          · exact absurd h (by simp)
    · exact absurd h (by simp)

theorem pattern3match_length {cs : List Char} {w1 w2 : List Char} {c : Char}
    {r4 : List Char} (h : pattern3match cs = some (w1, w2, c, r4)) :
    r4.length < cs.length := by
  obtain ⟨hcs, -, -, -, -, -, -⟩ := pattern3match_some h
  rw [hcs]
  simp [List.length_append]
  omega

theorem pattern3step_match (recur : List Char → List Char × Nat)
    {cs : List Char} {w1 w2 : List Char} {c : Char} {r4 : List Char}
    (h : pattern3match cs = some (w1, w2, c, r4)) :
    pattern3step recur cs =
      (w1 ++ '/' :: '/' :: (w2 ++ c :: (recur r4).1), (recur r4).2 + 1) := by
  conv_lhs => rw [pattern3step.eq_def]
  rw [h]

theorem pattern3step_none (recur : List Char → List Char × Nat) {d : Char}
    {r : List Char} (h : pattern3match (d :: r) = none) :
    pattern3step recur (d :: r) = (d :: (recur r).1, (recur r).2) := by
  conv_lhs => rw [pattern3step.eq_def]
  rw [h]

theorem pattern3scanF_succ (f : Nat) (cs : List Char) :
    pattern3scanF (f + 1) cs = pattern3step (pattern3scanF f) cs := rfl

theorem pattern3scanF_nil (f : Nat) : pattern3scanF f [] = ([], 0) := by
  cases f with
  | zero => rfl
  | succ g => rfl

theorem pattern3scanF_irrel : ∀ (f1 f2 : Nat) (cs : List Char),
    cs.length ≤ f1 → cs.length ≤ f2 → pattern3scanF f1 cs = pattern3scanF f2 cs := by
  intro f1
  induction f1 with
  | zero =>
    intro f2 cs h1 _
    have : cs = [] := List.length_eq_zero.mp (Nat.le_zero.mp h1)
    subst this
    rw [pattern3scanF_nil, pattern3scanF_nil]
  | succ g ih =>
    intro f2 cs h1 h2
    cases cs with
    | nil => rw [pattern3scanF_nil, pattern3scanF_nil]
    | cons d r =>
      cases f2 with
      | zero => simp at h2
      | succ g2 =>
        rw [pattern3scanF_succ g, pattern3scanF_succ g2]
        cases hm : pattern3match (d :: r) with
        | some v =>
          obtain ⟨w1, w2, c, r4⟩ := v
          have hlen := pattern3match_length hm
          simp only [List.length_cons] at h1 h2 hlen
          rw [pattern3step_match (pattern3scanF g) hm,
            pattern3step_match (pattern3scanF g2) hm,
            ih g2 r4 (by omega) (by omega)]
        | none =>
          simp only [List.length_cons] at h1 h2
          rw [pattern3step_none (pattern3scanF g) hm,
            pattern3step_none (pattern3scanF g2) hm,
            ih g2 r (by omega) (by omega)]

theorem pattern3_nil : pattern3 [] = ([], 0) := rfl

theorem pattern3_match_eq {cs : List Char} {w1 w2 : List Char} {c : Char}
    {r4 : List Char} (h : pattern3match cs = some (w1, w2, c, r4)) :
    pattern3 cs =
      (w1 ++ '/' :: '/' :: (w2 ++ c :: (pattern3 r4).1), (pattern3 r4).2 + 1) := by
  have hlen := pattern3match_length h
  cases cs with
  | nil => exact absurd h (by simp [pattern3match])
  | cons d r =>
    simp only [List.length_cons] at hlen
    show pattern3scanF (r.length + 1) (d :: r) = _
    rw [pattern3scanF_succ, pattern3step_match (pattern3scanF r.length) h,
      pattern3scanF_irrel r.length r4.length r4 (by omega) le_rfl]
    rfl

theorem pattern3_none_cons {d : Char} {r : List Char}
    (h : pattern3match (d :: r) = none) :
    pattern3 (d :: r) = (d :: (pattern3 r).1, (pattern3 r).2) := by
  show pattern3scanF (r.length + 1) (d :: r) = _
  rw [pattern3scanF_succ, pattern3step_none (pattern3scanF r.length) h]
  rfl

/-! ### Recursion equations for the pattern 2 scanner -/

theorem dropWhile_length_le (p : Char → Bool) (l : List Char) :
    (l.dropWhile p).length ≤ l.length := by
  induction l with
  | nil => simp
  | cons a r ih =>
    rw [List.dropWhile_cons]
    split
    · exact Nat.le_succ_of_le ih
    · exact le_rfl

theorem pattern2match_length {cs : List Char} {repl rest : List Char}
    (h : pattern2match cs = some (repl, rest)) : rest.length < cs.length := by
  simp only [pattern2match] at h
  split at h
  · rename_i a b r1
    split at h
    · exact absurd h (by simp)
    · split at h
      · exact absurd h (by simp)
      · split at h
        · exact absurd h (by simp)
        · split at h
          · rename_i c r5 hr4
            split at h
            · exact absurd h (by simp)
            · split at h
              · exact absurd h (by simp)
              · split at h
                · exact absurd h (by simp)
                · split at h
                  · rename_i a3 b3 r8 hr7
                    split at h
                    · exact absurd h (by simp)
                    · split at h
                      · exact absurd h (by simp)
                      · simp only [Option.some.injEq, Prod.mk.injEq] at h
                        obtain ⟨-, hrest⟩ := h
                        subst hrest
                        have k1 := dropWhile_length_le (· == '=') (r8.dropWhile isWs)
                        have k2 := dropWhile_length_le isWs r8
                        have k3 := congrArg List.length hr7
                        have k5 := dropWhile_length_le isWs (r5.dropWhile isTitleChar)
                        have k6 := dropWhile_length_le isTitleChar r5
                        have k7 := congrArg List.length hr4
                        have k8 := dropWhile_length_le isWs
                          ((r1.dropWhile isWs).dropWhile (· == '='))
                        have k9 := dropWhile_length_le (· == '=') (r1.dropWhile isWs)
                        have k10 := dropWhile_length_le isWs r1
                        simp only [List.length_cons] at k3 k7
                        simp only [List.length_cons]
                        omega
                  · exact absurd h (by simp)
          · exact absurd h (by simp)
  · exact absurd h (by simp)

theorem pattern2step_match (recur : List Char → List Char × Nat)
    {cs repl rest : List Char} (h : pattern2match cs = some (repl, rest)) :
    pattern2step recur cs = (repl ++ (recur rest).1, (recur rest).2 + 1) := by
  conv_lhs => rw [pattern2step.eq_def]
  rw [h]

theorem pattern2step_none (recur : List Char → List Char × Nat) {c : Char}
    {r : List Char} (h : pattern2match (c :: r) = none) :
    pattern2step recur (c :: r) = (c :: (recur r).1, (recur r).2) := by
  conv_lhs => rw [pattern2step.eq_def]
  rw [h]

theorem pattern2scanF_succ (f : Nat) (cs : List Char) :
    pattern2scanF (f + 1) cs = pattern2step (pattern2scanF f) cs := rfl

theorem pattern2scanF_nil (f : Nat) : pattern2scanF f [] = ([], 0) := by
  cases f with
  | zero => rfl
  | succ g => rfl

theorem pattern2scanF_irrel : ∀ (f1 f2 : Nat) (cs : List Char),
    cs.length ≤ f1 → cs.length ≤ f2 → pattern2scanF f1 cs = pattern2scanF f2 cs := by
  intro f1
  induction f1 with
  | zero =>
    intro f2 cs h1 _
    have : cs = [] := List.length_eq_zero.mp (Nat.le_zero.mp h1)
    subst this
    rw [pattern2scanF_nil, pattern2scanF_nil]
  | succ g ih =>
    intro f2 cs h1 h2
    cases cs with
    | nil => rw [pattern2scanF_nil, pattern2scanF_nil]
    | cons d r =>
      cases f2 with
      | zero => simp at h2
      | succ g2 =>
        rw [pattern2scanF_succ g, pattern2scanF_succ g2]
        cases hm : pattern2match (d :: r) with
        | some v =>
          obtain ⟨repl, rest⟩ := v
          have hlen := pattern2match_length hm
          simp only [List.length_cons] at h1 h2 hlen
          rw [pattern2step_match (pattern2scanF g) hm,
            pattern2step_match (pattern2scanF g2) hm,
            ih g2 rest (by omega) (by omega)]
        | none =>
          simp only [List.length_cons] at h1 h2
          rw [pattern2step_none (pattern2scanF g) hm,
            pattern2step_none (pattern2scanF g2) hm,
            ih g2 r (by omega) (by omega)]

theorem pattern2_nil : pattern2 [] = ([], 0) := rfl

theorem pattern2_match_eq {cs repl rest : List Char}
    (h : pattern2match cs = some (repl, rest)) :
    pattern2 cs = (repl ++ (pattern2 rest).1, (pattern2 rest).2 + 1) := by
  have hlen := pattern2match_length h
  cases cs with
  | nil => exact absurd h (by simp [pattern2match])
  | cons d r =>
    simp only [List.length_cons] at hlen
    show pattern2scanF (r.length + 1) (d :: r) = _
    rw [pattern2scanF_succ, pattern2step_match (pattern2scanF r.length) h,
      pattern2scanF_irrel r.length rest.length rest (by omega) le_rfl]
    rfl

theorem pattern2_none_cons {d : Char} {r : List Char}
    (h : pattern2match (d :: r) = none) :
    pattern2 (d :: r) = (d :: (pattern2 r).1, (pattern2 r).2) := by
  show pattern2scanF (r.length + 1) (d :: r) = _
  rw [pattern2scanF_succ, pattern2step_none (pattern2scanF r.length) h]
  rfl

/-! ### Recursion equations for the pattern 6 scanner -/

theorem pattern6match_some {cs repl rest : List Char}
    (h : pattern6match cs = some (repl, rest)) :
    ∃ w e, cs = '/' :: (w ++ (e ++ rest)) ∧ repl = '/' :: '/' :: (w ++ e) ∧
      (∀ a ∈ w, isWs a = true) ∧ e ≠ [] ∧ (∀ a ∈ e, a = '=') := by
  simp only [pattern6match] at h
  split at h
  · rename_i s r
    split at h
    · exact absurd h (by simp)
    · rename_i hs
      rw [Classical.not_not] at hs
      subst hs
      split at h
      · exact absurd h (by simp)
      · rename_i he
        simp only [Option.some.injEq, Prod.mk.injEq] at h
        obtain ⟨hrepl, hrest⟩ := h
        refine ⟨r.takeWhile isWs, (r.dropWhile isWs).takeWhile (· == '='),
          ?_, ?_, ?_, ?_, ?_⟩
        · rw [← hrest]
          congr 1
          conv_lhs => rw [← List.takeWhile_append_dropWhile isWs r]
          congr 1
          conv_lhs =>
            rw [← List.takeWhile_append_dropWhile (· == '=') (r.dropWhile isWs)]
        · rw [← hrepl]
        · intro a ha; exact List.mem_takeWhile_imp ha
        · simpa using he
        · intro a ha; simpa using List.mem_takeWhile_imp ha
  · exact absurd h (by simp)

theorem pattern6match_length {cs repl rest : List Char}
    (h : pattern6match cs = some (repl, rest)) : rest.length < cs.length := by
  obtain ⟨w, e, hcs, -, -, -, -⟩ := pattern6match_some h
  rw [hcs]
  simp [List.length_append]
  omega

theorem pattern6match_slash_none {r : List Char} :
    pattern6match ('/' :: r) = none ↔
      ((r.dropWhile isWs).takeWhile (· == '=')).isEmpty = true := by
  simp only [pattern6match]
  rw [if_neg (by simp)]
  constructor
  · intro h
    by_contra hne
    rw [if_neg hne] at h
    exact Option.noConfusion h
  · intro h
    rw [if_pos h]

theorem pattern6match_not_slash {c : Char} {r : List Char} (h : ¬c = '/') :
    pattern6match (c :: r) = none := by
  simp only [pattern6match]
  rw [if_pos h]

theorem pattern6match_nil : pattern6match [] = none := rfl

theorem pattern6step_nil (recur : Bool → List Char → List Char × Nat) (b : Bool) :
    pattern6step recur b [] = ([], 0) := by
  cases b with
  | false =>
    conv_lhs => rw [pattern6step.eq_def]
    rw [if_neg (by simp)]
  | true =>
    conv_lhs => rw [pattern6step.eq_def]
    rw [if_pos (show (true : Bool) = true from rfl), pattern6match_nil]

theorem pattern6step_true_match (recur : Bool → List Char → List Char × Nat)
    {cs repl rest : List Char} (h : pattern6match cs = some (repl, rest)) :
    pattern6step recur true cs =
      (repl ++ (recur false rest).1, (recur false rest).2 + 1) := by
  conv_lhs => rw [pattern6step.eq_def]
  rw [if_pos (show (true : Bool) = true from rfl), h]

theorem pattern6step_true_none (recur : Bool → List Char → List Char × Nat)
    {c : Char} {r : List Char} (h : pattern6match (c :: r) = none) :
    pattern6step recur true (c :: r) =
      (c :: (recur (c == '\n') r).1, (recur (c == '\n') r).2) := by
  conv_lhs => rw [pattern6step.eq_def]
  rw [if_pos (show (true : Bool) = true from rfl), h]

theorem pattern6step_false (recur : Bool → List Char → List Char × Nat)
    (c : Char) (r : List Char) :
    pattern6step recur false (c :: r) =
      (c :: (recur (c == '\n') r).1, (recur (c == '\n') r).2) := by
  conv_lhs => rw [pattern6step.eq_def]
  rw [if_neg (by simp)]

theorem pattern6scanF_succ (f : Nat) (b : Bool) (cs : List Char) :
    pattern6scanF (f + 1) b cs = pattern6step (pattern6scanF f) b cs := rfl

theorem pattern6scanF_nil (f : Nat) (b : Bool) : pattern6scanF f b [] = ([], 0) := by
  cases f with
  | zero => rfl
  | succ g => rw [pattern6scanF_succ, pattern6step_nil]

theorem pattern6scanF_irrel : ∀ (f1 f2 : Nat) (b : Bool) (cs : List Char),
    cs.length ≤ f1 → cs.length ≤ f2 →
    pattern6scanF f1 b cs = pattern6scanF f2 b cs := by
  intro f1
  induction f1 with
  | zero =>
    intro f2 b cs h1 _
    have : cs = [] := List.length_eq_zero.mp (Nat.le_zero.mp h1)
    subst this
    rw [pattern6scanF_nil, pattern6scanF_nil]
  | succ g ih =>
    intro f2 b cs h1 h2
    cases cs with
    | nil => rw [pattern6scanF_nil, pattern6scanF_nil]
    | cons d r =>
      cases f2 with
      | zero => simp at h2
      | succ g2 =>
        rw [pattern6scanF_succ g, pattern6scanF_succ g2]
        cases b with
        | false =>
          rw [pattern6step_false (pattern6scanF g), pattern6step_false (pattern6scanF g2)]
          simp only [List.length_cons] at h1 h2
          rw [ih g2 (d == '\n') r (by omega) (by omega)]
        | true =>
          cases hm : pattern6match (d :: r) with
          | some v =>
            obtain ⟨repl, rest⟩ := v
            have hlen := pattern6match_length hm
            simp only [List.length_cons] at h1 h2 hlen
            rw [pattern6step_true_match (pattern6scanF g) hm,
              pattern6step_true_match (pattern6scanF g2) hm,
              ih g2 false rest (by omega) (by omega)]
          | none =>
            simp only [List.length_cons] at h1 h2
            rw [pattern6step_true_none (pattern6scanF g) hm,
              pattern6step_true_none (pattern6scanF g2) hm,
              ih g2 (d == '\n') r (by omega) (by omega)]

theorem pattern6run_nil (b : Bool) : pattern6run b [] = ([], 0) := rfl

theorem pattern6run_true_match {cs repl rest : List Char}
    (h : pattern6match cs = some (repl, rest)) :
    pattern6run true cs =
      (repl ++ (pattern6run false rest).1, (pattern6run false rest).2 + 1) := by
  have hlen := pattern6match_length h
  cases cs with
  | nil => exact absurd h (by simp [pattern6match_nil])
  | cons d r =>
    simp only [List.length_cons] at hlen
    show pattern6scanF (r.length + 1) true (d :: r) = _
    rw [pattern6scanF_succ, pattern6step_true_match (pattern6scanF r.length) h,
      pattern6scanF_irrel r.length rest.length false rest (by omega) le_rfl]
    rfl

theorem pattern6run_true_none {d : Char} {r : List Char}
    (h : pattern6match (d :: r) = none) :
    pattern6run true (d :: r) =
      (d :: (pattern6run (d == '\n') r).1, (pattern6run (d == '\n') r).2) := by
  show pattern6scanF (r.length + 1) true (d :: r) = _
  rw [pattern6scanF_succ, pattern6step_true_none (pattern6scanF r.length) h]
  rfl

theorem pattern6run_false (d : Char) (r : List Char) :
    pattern6run false (d :: r) =
      (d :: (pattern6run (d == '\n') r).1, (pattern6run (d == '\n') r).2) := by
  show pattern6scanF (r.length + 1) false (d :: r) = _
  rw [pattern6scanF_succ, pattern6step_false (pattern6scanF r.length)]
  rfl

/-! ### Local idempotence of pattern 3 -/

theorem isLetterAZ_ne_slash {c : Char} (h : isLetterAZ c = true) : c ≠ '/' := by
  intro he
  subst he
  exact absurd h (by decide)

theorem pattern3match_nonws_head {a : Char} {z : List Char} (ha : isWs a = false) :
    pattern3match (a :: z) = none := by
  simp only [pattern3match]
  rw [takeWhile_cons_of_neg ha]
  simp

theorem pattern3match_ws_nonslash {u : List Char} {c : Char} {z : List Char}
    (hu : ∀ a ∈ u, isWs a = true) (hc : isWs c = false) (hc' : c ≠ '/') :
    pattern3match (u ++ c :: z) = none := by
  simp only [pattern3match]
  rw [takeWhile_append_of_all hu, takeWhile_cons_of_neg hc,
    dropWhile_append_of_all hu, dropWhile_cons_of_neg hc]
  split
  · rfl
  · dsimp only
    rw [if_pos hc']

theorem pattern3match_ws_slash_slash {u : List Char} {z : List Char}
    (hu : ∀ a ∈ u, isWs a = true) :
    pattern3match (u ++ '/' :: '/' :: z) = none := by
  simp only [pattern3match]
  rw [takeWhile_append_of_all hu,
    takeWhile_cons_of_neg (show isWs '/' = false by decide),
    dropWhile_append_of_all hu,
    dropWhile_cons_of_neg (show isWs '/' = false by decide)]
  split
  · rfl
  · dsimp only
    rw [if_neg (by simp), takeWhile_cons_of_neg (show isWs '/' = false by decide)]
    simp

theorem slashSiteFree_nil : slashSiteFree [] := trivial

theorem slashSiteFree_not_slash {s : Char} {x : List Char} (h : s ≠ '/') :
    slashSiteFree (s :: x) := by
  intro hs
  exact absurd hs h

theorem slashSiteFree_slash {x : List Char} :
    slashSiteFree ('/' :: x) ↔
      ((x.takeWhile isWs).isEmpty = true ∨
        ∀ d, (x.dropWhile isWs).head? = some d → isLetterAZ d = false) := by
  constructor
  · intro h; exact h rfl
  · intro h _; exact h

theorem pattern3match_ws_iff {c : Char} {z : List Char} (hc : isWs c = true) :
    pattern3match (c :: z) = none ↔ slashSiteFree (z.dropWhile isWs) := by
  simp only [pattern3match, List.takeWhile_cons, List.dropWhile_cons, hc, if_true]
  rw [if_neg (by simp)]
  cases hz : z.dropWhile isWs with
  | nil => simp [slashSiteFree]
  | cons s r2 =>
    dsimp only
    by_cases hs : s = '/'
    · subst hs
      rw [if_neg (by simp)]
      by_cases hemp : (r2.takeWhile isWs).isEmpty = true
      · rw [if_pos hemp]
        simp [slashSiteFree, hemp]
      · rw [if_neg hemp]
        cases hd : r2.dropWhile isWs with
        | nil =>
          simp [slashSiteFree, hemp, hd]
        | cons d r4 =>
          dsimp only
          by_cases hl : isLetterAZ d = true
          · rw [if_pos hl]
            simp [slashSiteFree, hemp, hd, hl]
          · rw [if_neg hl]
            simp [slashSiteFree, hemp, hd, hl]
    · rw [if_pos hs]
      simp [slashSiteFree, hs]

theorem pattern3_preserve (cs : List Char) :
    ((pattern3 cs).1).takeWhile isWs = cs.takeWhile isWs ∧
      (((pattern3 cs).1).dropWhile isWs).head? = (cs.dropWhile isWs).head? := by
  suffices h : ∀ n (cs : List Char), cs.length ≤ n →
      ((pattern3 cs).1).takeWhile isWs = cs.takeWhile isWs ∧
      (((pattern3 cs).1).dropWhile isWs).head? = (cs.dropWhile isWs).head? from
    h cs.length cs le_rfl
  intro n
  induction n with
  | zero =>
    intro cs hl
    have : cs = [] := List.length_eq_zero.mp (Nat.le_zero.mp hl)
    subst this
    rw [pattern3_nil]
    exact ⟨rfl, rfl⟩
  | succ k ih =>
    intro cs hl
    cases hm : pattern3match cs with
    | some v =>
      obtain ⟨w1, w2, c, r4⟩ := v
      obtain ⟨hcs, -, hw1, -, -, -, -⟩ := pattern3match_some hm
      have hout : (pattern3 cs).1 = w1 ++ '/' :: '/' :: (w2 ++ c :: (pattern3 r4).1) := by
        rw [pattern3_match_eq hm]
      rw [hout]
      constructor
      · rw [takeWhile_append_of_all hw1,
          takeWhile_cons_of_neg (show isWs '/' = false by decide)]
        conv_rhs => rw [hcs, takeWhile_append_of_all hw1,
          takeWhile_cons_of_neg (show isWs '/' = false by decide)]
      · rw [dropWhile_append_of_all hw1,
          dropWhile_cons_of_neg (show isWs '/' = false by decide)]
        conv_rhs => rw [hcs, dropWhile_append_of_all hw1,
          dropWhile_cons_of_neg (show isWs '/' = false by decide)]
        rfl
    | none =>
      cases cs with
      | nil =>
        rw [pattern3_nil]
        exact ⟨rfl, rfl⟩
      | cons d r =>
        have hout : (pattern3 (d :: r)).1 = d :: (pattern3 r).1 := by
          rw [pattern3_none_cons hm]
        rw [hout]
        simp only [List.length_cons] at hl
        by_cases hd : isWs d = true
        · simp only [List.takeWhile_cons, List.dropWhile_cons, hd, if_true]
          have hr := ih r (by omega)
          exact ⟨by rw [hr.1], hr.2⟩
        · have hd' : isWs d = false := by simpa using hd
          rw [takeWhile_cons_of_neg hd', takeWhile_cons_of_neg hd',
            dropWhile_cons_of_neg hd', dropWhile_cons_of_neg hd']
          exact ⟨rfl, rfl⟩

theorem pattern3_ws_none : ∀ (c : Char) (r : List Char), isWs c = true →
    pattern3match (c :: r) = none →
    pattern3match (c :: (pattern3 r).1) = none := by
  suffices h : ∀ n (c : Char) (r : List Char), r.length ≤ n → isWs c = true →
      pattern3match (c :: r) = none →
      pattern3match (c :: (pattern3 r).1) = none from
    fun c r => h r.length c r le_rfl
  intro n
  induction n with
  | zero =>
    intro c r hl hc hnone
    have : r = [] := List.length_eq_zero.mp (Nat.le_zero.mp hl)
    subst this
    exact hnone
  | succ k ih =>
    intro c r hl hc hnone
    cases hm : pattern3match r with
    | some v =>
      obtain ⟨w1, w2, d, r4⟩ := v
      obtain ⟨hr, -, hw1, hw2ne, hw2, hlet, hdws⟩ := pattern3match_some hm
      exfalso
      rw [pattern3match_ws_iff hc] at hnone
      rw [hr, dropWhile_append_of_all hw1,
        dropWhile_cons_of_neg (show isWs '/' = false by decide)] at hnone
      rcases slashSiteFree_slash.mp hnone with hemp | hlet2
      · rw [takeWhile_append_of_all hw2, takeWhile_cons_of_neg hdws] at hemp
        simp at hemp
        exact hw2ne hemp
      · have hhd : (List.dropWhile isWs (w2 ++ d :: r4)).head? = some d := by
          rw [dropWhile_append_of_all hw2, dropWhile_cons_of_neg hdws]
          rfl
        have := hlet2 d hhd
        rw [hlet] at this
        exact Bool.noConfusion this
    | none =>
      cases r with
      | nil => exact hnone
      | cons c2 r2 =>
        have hout : (pattern3 (c2 :: r2)).1 = c2 :: (pattern3 r2).1 := by
          rw [pattern3_none_cons hm]
        rw [hout]
        simp only [List.length_cons] at hl
        by_cases hc2 : isWs c2 = true
        · have h2 : pattern3match (c2 :: r2) = none := by
            rw [pattern3match_ws_iff hc] at hnone
            simp only [List.dropWhile_cons, hc2, if_true] at hnone
            rw [pattern3match_ws_iff hc2]
            exact hnone
          have h3 := ih c2 r2 (by omega) hc2 h2
          rw [pattern3match_ws_iff hc]
          simp only [List.dropWhile_cons, hc2, if_true]
          rw [pattern3match_ws_iff hc2] at h3
          exact h3
        · have hc2' : isWs c2 = false := by simpa using hc2
          by_cases hsl : c2 = '/'
          · subst hsl
            rw [pattern3match_ws_iff hc] at hnone ⊢
            rw [dropWhile_cons_of_neg hc2'] at hnone ⊢
            rcases slashSiteFree_slash.mp hnone with hemp | hfree
            · apply slashSiteFree_slash.mpr
              left
              rw [(pattern3_preserve r2).1]
              exact hemp
            · apply slashSiteFree_slash.mpr
              right
              intro d hd
              rw [(pattern3_preserve r2).2] at hd
              exact hfree d hd
          · rw [pattern3match_ws_iff hc, dropWhile_cons_of_neg hc2']
            exact slashSiteFree_not_slash hsl

theorem pattern3_append_none {xs ys : List Char}
    (h : ∀ t, t <:+ xs → t ≠ [] → pattern3match (t ++ ys) = none) :
    pattern3 (xs ++ ys) = (xs ++ (pattern3 ys).1, (pattern3 ys).2) := by
  induction xs with
  | nil => simp
  | cons x xs' ih =>
    have h0 : pattern3match (x :: (xs' ++ ys)) = none := by
      have := h (x :: xs') (List.suffix_refl _) (by simp)
      simpa using this
    rw [List.cons_append, pattern3_none_cons h0,
      ih (fun t ht hne => h t (ht.trans (List.suffix_cons x xs')) hne)]
    simp

theorem pattern3_idem (cs : List Char) :
    pattern3 ((pattern3 cs).1) = ((pattern3 cs).1, 0) := by
  suffices h : ∀ n (cs : List Char), cs.length ≤ n →
      pattern3 ((pattern3 cs).1) = ((pattern3 cs).1, 0) from h cs.length cs le_rfl
  intro n
  induction n with
  | zero =>
    intro cs hl
    have : cs = [] := List.length_eq_zero.mp (Nat.le_zero.mp hl)
    subst this
    rw [pattern3_nil]
    exact pattern3_nil
  | succ k ih =>
    intro cs hl
    cases hm : pattern3match cs with
    | some v =>
      obtain ⟨w1, w2, c, r4⟩ := v
      obtain ⟨hcs, -, hw1, -, hw2, hlet, hcws⟩ := pattern3match_some hm
      have hlen := pattern3match_length hm
      have hout : (pattern3 cs).1 =
          (w1 ++ '/' :: '/' :: (w2 ++ [c])) ++ (pattern3 r4).1 := by
        rw [pattern3_match_eq hm]
        simp
      rw [hout]
      have hsuffix : ∀ t, t <:+ (w1 ++ '/' :: '/' :: (w2 ++ [c])) → t ≠ [] →
          pattern3match (t ++ (pattern3 r4).1) = none := by
        intro t ht hne
        rcases suffix_append_cases ht with ht | ⟨u, hu, -, rfl⟩
        · rcases List.suffix_cons_iff.mp ht with rfl | ht
          · rw [List.cons_append]
            exact pattern3match_nonws_head (by decide)
          · rcases List.suffix_cons_iff.mp ht with rfl | ht
            · rw [List.cons_append]
              exact pattern3match_nonws_head (by decide)
            · rcases suffix_append_cases ht with ht | ⟨u2, hu2, -, rfl⟩
              · rcases List.suffix_cons_iff.mp ht with rfl | ht
                · rw [List.cons_append]
                  exact pattern3match_nonws_head hcws
                · exact absurd (List.suffix_nil.mp ht) hne
              · rw [List.append_assoc, List.cons_append, List.nil_append]
                exact pattern3match_ws_nonslash
                  (fun a ha => hw2 a (hu2.subset ha)) hcws (isLetterAZ_ne_slash hlet)
        · rw [List.append_assoc]
          simp only [List.cons_append]
          exact pattern3match_ws_slash_slash (fun a ha => hw1 a (hu.subset ha))
      rw [pattern3_append_none hsuffix]
      rw [ih r4 (by omega)]
    | none =>
      cases cs with
      | nil =>
        rw [pattern3_nil]
        exact pattern3_nil
      | cons d r =>
        have hout : (pattern3 (d :: r)).1 = d :: (pattern3 r).1 := by
          rw [pattern3_none_cons hm]
        rw [hout]
        have hnone2 : pattern3match (d :: (pattern3 r).1) = none := by
          by_cases hd : isWs d = true
          · exact pattern3_ws_none d r hd hm
          · exact pattern3match_nonws_head (by simpa using hd)
        rw [pattern3_none_cons hnone2]
        simp only [List.length_cons] at hl
        rw [ih r (by omega)]

/-! ### Local idempotence of pattern 6 -/

theorem lineState_nil (b : Bool) : lineState b [] = b := rfl

theorem lineState_cons (b : Bool) (x : Char) (xs : List Char) :
    lineState b (x :: xs) = lineState (x == '\n') xs := by
  cases xs with
  | nil => rfl
  | cons y ys =>
    cases h : (y :: ys).getLast? with
    | none => exact absurd (List.getLast?_eq_none_iff.mp h) (by simp)
    | some a =>
      simp [lineState, List.getLast?_cons_cons, h]

theorem pattern6run_no_slash_append : ∀ (xs : List Char),
    (∀ a ∈ xs, a ≠ '/') → ∀ (b : Bool) (ys : List Char),
    pattern6run b (xs ++ ys) =
      (xs ++ (pattern6run (lineState b xs) ys).1,
        (pattern6run (lineState b xs) ys).2) := by
  intro xs
  induction xs with
  | nil =>
    intro _ b ys
    simp [lineState_nil]
  | cons x xs' ih =>
    intro hxs b ys
    have hx : x ≠ '/' := hxs x (List.mem_cons_self _ _)
    have hstep : pattern6run b ((x :: xs') ++ ys) =
        (x :: (pattern6run (x == '\n') (xs' ++ ys)).1,
          (pattern6run (x == '\n') (xs' ++ ys)).2) := by
      rw [List.cons_append]
      cases b with
      | false => exact pattern6run_false x (xs' ++ ys)
      | true => exact pattern6run_true_none (pattern6match_not_slash hx)
    rw [hstep, ih (fun a ha => hxs a (List.mem_cons_of_mem x ha)) (x == '\n') ys,
      lineState_cons]
    simp

theorem takeWhile_isEmpty_of_head {p : Char → Bool} {z z' : List Char}
    (h : z.head? = z'.head?) :
    (z.takeWhile p).isEmpty = (z'.takeWhile p).isEmpty := by
  cases z with
  | nil =>
    cases z' with
    | nil => rfl
    | cons a t => simp at h
  | cons a t =>
    cases z' with
    | nil => simp at h
    | cons a' t' =>
      simp only [List.head?_cons, Option.some.injEq] at h
      subst h
      rw [List.takeWhile_cons, List.takeWhile_cons]
      split <;> simp

theorem pattern6_preserve : ∀ (cs : List Char) (b : Bool),
    ((pattern6run b cs).1).takeWhile isWs = cs.takeWhile isWs ∧
      (((pattern6run b cs).1).dropWhile isWs).head? = (cs.dropWhile isWs).head? := by
  suffices h : ∀ n (cs : List Char) (b : Bool), cs.length ≤ n →
      ((pattern6run b cs).1).takeWhile isWs = cs.takeWhile isWs ∧
      (((pattern6run b cs).1).dropWhile isWs).head? = (cs.dropWhile isWs).head? from
    fun cs b => h cs.length cs b le_rfl
  intro n
  induction n with
  | zero =>
    intro cs b hl
    have : cs = [] := List.length_eq_zero.mp (Nat.le_zero.mp hl)
    subst this
    rw [pattern6run_nil]
    exact ⟨rfl, rfl⟩
  | succ k ih =>
    intro cs b hl
    have hemit : ∀ (c : Char) (r : List Char), cs = c :: r →
        (pattern6run b cs).1 = c :: (pattern6run (c == '\n') r).1 →
        ((pattern6run b cs).1).takeWhile isWs = cs.takeWhile isWs ∧
        (((pattern6run b cs).1).dropWhile isWs).head? = (cs.dropWhile isWs).head? := by
      intro c r hcs hout
      subst hcs
      rw [hout]
      simp only [List.length_cons] at hl
      by_cases hc : isWs c = true
      · simp only [List.takeWhile_cons, List.dropWhile_cons, hc, if_true]
        have hr := ih r (c == '\n') (by omega)
        exact ⟨by rw [hr.1], hr.2⟩
      · have hc' : isWs c = false := by simpa using hc
        rw [takeWhile_cons_of_neg hc', takeWhile_cons_of_neg hc',
          dropWhile_cons_of_neg hc', dropWhile_cons_of_neg hc']
        exact ⟨rfl, rfl⟩
    cases b with
    | false =>
      cases cs with
      | nil =>
        rw [pattern6run_nil]
        exact ⟨rfl, rfl⟩
      | cons c r =>
        exact hemit c r rfl (by rw [pattern6run_false])
    | true =>
      cases hm : pattern6match cs with
      | some v =>
        obtain ⟨repl, rest⟩ := v
        obtain ⟨w, e, hcs, hrepl, -, -, -⟩ := pattern6match_some hm
        have hout : (pattern6run true cs).1 =
            '/' :: '/' :: (w ++ e) ++ (pattern6run false rest).1 := by
          rw [pattern6run_true_match hm, hrepl]
        subst hcs
        rw [hout]
        simp only [List.cons_append]
        rw [takeWhile_cons_of_neg (show isWs '/' = false by decide),
          takeWhile_cons_of_neg (show isWs '/' = false by decide),
          dropWhile_cons_of_neg (show isWs '/' = false by decide),
          dropWhile_cons_of_neg (show isWs '/' = false by decide)]
        exact ⟨rfl, rfl⟩
      | none =>
        cases cs with
        | nil =>
          rw [pattern6run_nil]
          exact ⟨rfl, rfl⟩
        | cons c r =>
          exact hemit c r rfl (by rw [pattern6run_true_none hm])

theorem pattern6_ws_eq_none {r : List Char} (b : Bool)
    (h : pattern6match ('/' :: r) = none) :
    pattern6match ('/' :: (pattern6run b r).1) = none := by
  rw [pattern6match_slash_none] at h ⊢
  rw [takeWhile_isEmpty_of_head (pattern6_preserve r b).2]
  exact h

theorem pattern6match_slash_slash (z : List Char) :
    pattern6match ('/' :: '/' :: z) = none := by
  rw [pattern6match_slash_none,
    dropWhile_cons_of_neg (show isWs '/' = false by decide),
    @takeWhile_cons_of_neg (fun x => x == '=') '/' (by decide) z]
  rfl

theorem ws_ne_slash {a : Char} (h : isWs a = true) : a ≠ '/' := by
  intro he
  subst he
  exact absurd h (by decide)

theorem getLast?_all_eq {e : List Char} (hne : e ≠ []) (h : ∀ a ∈ e, a = '=') :
    e.getLast? = some '=' := by
  induction e with
  | nil => exact absurd rfl hne
  | cons x xs ih =>
    cases xs with
    | nil =>
      have := h x (List.mem_cons_self _ _)
      simp [this]
    | cons y ys =>
      rw [List.getLast?_cons_cons]
      exact ih (by simp) (fun a ha => h a (List.mem_cons_of_mem x ha))

theorem pattern6_idem : ∀ (b : Bool) (cs : List Char),
    pattern6run b ((pattern6run b cs).1) = ((pattern6run b cs).1, 0) := by
  suffices h : ∀ n (cs : List Char) (b : Bool), cs.length ≤ n →
      pattern6run b ((pattern6run b cs).1) = ((pattern6run b cs).1, 0) from
    fun b cs => h cs.length cs b le_rfl
  intro n
  induction n with
  | zero =>
    intro cs b hl
    have : cs = [] := List.length_eq_zero.mp (Nat.le_zero.mp hl)
    subst this
    rw [pattern6run_nil]
    exact pattern6run_nil b
  | succ k ih =>
    intro cs b hl
    cases b with
    | false =>
      cases cs with
      | nil =>
        rw [pattern6run_nil]
        exact pattern6run_nil false
      | cons c r =>
        have hout : (pattern6run false (c :: r)).1 =
            c :: (pattern6run (c == '\n') r).1 := by rw [pattern6run_false]
        rw [hout]
        simp only [List.length_cons] at hl
        rw [pattern6run_false, ih r (c == '\n') (by omega)]
    | true =>
      cases hm : pattern6match cs with
      | some v =>
        obtain ⟨repl, rest⟩ := v
        obtain ⟨w, e, hcs, hrepl, hws, hene, heq⟩ := pattern6match_some hm
        have hout : (pattern6run true cs).1 =
            '/' :: '/' :: ((w ++ e) ++ (pattern6run false rest).1) := by
          rw [pattern6run_true_match hm, hrepl]
          simp
        rw [hout]
        have hrest : rest.length ≤ k := by
          rw [hcs] at hl
          simp [List.length_append] at hl
          omega
        have hno : ∀ a ∈ w ++ e, a ≠ '/' := by
          intro a ha
          rcases List.mem_append.mp ha with ha | ha
          · exact ws_ne_slash (hws a ha)
          · rw [heq a ha]
            decide
        have hls : lineState false (w ++ e) = false := by
          unfold lineState
          rw [List.getLast?_append, getLast?_all_eq hene heq]
          rfl
        rw [pattern6run_true_none (pattern6match_slash_slash _)]
        rw [show (('/' : Char) == '\n') = false from rfl]
        rw [pattern6run_false]
        rw [show (('/' : Char) == '\n') = false from rfl]
        rw [pattern6run_no_slash_append (w ++ e) hno false ((pattern6run false rest).1)]
        rw [hls, ih rest false hrest]
      | none =>
        cases cs with
        | nil =>
          rw [pattern6run_nil]
          exact pattern6run_nil true
        | cons c r =>
          have hout : (pattern6run true (c :: r)).1 =
              c :: (pattern6run (c == '\n') r).1 := by
            rw [pattern6run_true_none hm]
          rw [hout]
          have hnone2 : pattern6match (c :: (pattern6run (c == '\n') r).1) = none := by
            by_cases hc : c = '/'
            · subst hc
              exact pattern6_ws_eq_none _ hm
            · exact pattern6match_not_slash hc
          rw [pattern6run_true_none hnone2]
          simp only [List.length_cons] at hl
          rw [ih r (c == '\n') (by omega)]

/-! ### Lemmas about the file-effect models -/

theorem fixPipeline_total (cs : List Char) :
    (fixPipeline cs).2.total =
      (fixPipeline cs).2.section_headers + (fixPipeline cs).2.section_titles +
      (fixPipeline cs).2.object_comments + (fixPipeline cs).2.naked_headers +
      (fixPipeline cs).2.section_dividers + (fixPipeline cs).2.multiline_sections +
      (fixPipeline cs).2.mixed_slash_headers + (fixPipeline cs).2.standalone_slashes := rfl

theorem zeroTally_total :
    zeroTally.total =
      zeroTally.section_headers + zeroTally.section_titles +
      zeroTally.object_comments + zeroTally.naked_headers +
      zeroTally.section_dividers + zeroTally.multiline_sections +
      zeroTally.mixed_slash_headers + zeroTally.standalone_slashes := rfl

theorem fixFile_dry (crash : Option Nat) (fs : FS) (p : FPath) :
    fixFile true crash fs p = (fs, (fixFile true none fs p).2) := by
  unfold fixFile
  cases hfs : fs p with
  | none => rfl
  | some content =>
    dsimp only
    split
    · rfl
    · rfl

theorem fixFile_dry_no_write_error (fs : FS) (p : FPath) :
    ∀ (w : Bool) (t : FixTally), (fixFile true none fs p).2 ≠ PyOutcome.ok w t true := by
  intro w t
  unfold fixFile
  cases hfs : fs p with
  | none => simp
  | some content =>
    dsimp only
    split
    · simp
    · simp

theorem forceMode_dry (crash : Option Nat) (fs : FS) (p : FPath) :
    forceMode true crash fs p = (fs, (forceMode true none fs p).2) := by
  unfold forceMode
  cases hfs : fs p with
  | none => rfl
  | some content =>
    dsimp only
    rw [if_neg (by simp), if_neg (by simp)]

theorem doubleSlashLine_not_single {l : List Char} (h : doubleSlashLine l = true) :
    singleSlashLine l = false := by
  match l with
  | [] => exact absurd h (by simp [doubleSlashLine])
  | [c] => exact absurd h (by simp [doubleSlashLine])
  | c :: d :: r =>
    simp only [doubleSlashLine] at h
    split at h
    · rename_i hcd
      obtain ⟨rfl, rfl⟩ := hcd
      simp [singleSlashLine]
    · exact absurd h (by simp)

theorem noNl_forceLine {l : List Char} (h : '\n' ∉ l) :
    '\n' ∉ (if singleSlashLine l then '/' :: l else l) := by
  split
  · intro hm
    rcases List.mem_cons.mp hm with hm | hm
    · exact absurd hm.symm (by decide)
    · exact h hm
  · exact h

theorem forceTransform_lines (cs : List Char) :
    splitNl (forceTransform cs).1 =
      (splitNl cs).map (fun l => if singleSlashLine l then '/' :: l else l) :=
  splitNl_map_line _ (fun _ => noNl_forceLine) cs

/-! ### Claims -/

/-- C1 (counterexample): the full pipeline of `fix_file` is not idempotent.
On the text `"// ===\nTITLE\n===\n"` the first run only prefixes the bare
divider (`section_dividers`), producing `"// ===\nTITLE\n// ===\n"`; running
the pipeline again on that output performs a further `multiline_sections`
substitution, so the second run neither returns its input unchanged nor
reports an all-zero tally. -/
theorem c1_counterexample :
    fixPipeline ((fixPipeline exIdem).1) ≠ ((fixPipeline exIdem).1, zeroTally) := by
  decide

/-- C1 (amended): the pipeline is not idempotent; a second application can
perform further substitutions.  On `"// ===\nTITLE\n===\n"` the second run
performs exactly one `multiline_sections` substitution (total 1), and a
third run returns its input unchanged with an all-zero tally. -/
theorem c1_amended :
    (fixPipeline exIdem).1 = ("// ===\nTITLE\n// ===\n" : String).data ∧
    (fixPipeline ((fixPipeline exIdem).1)).1 =
      ("// ===\n// TITLE\n// ===\n" : String).data ∧
    (fixPipeline ((fixPipeline exIdem).1)).2.multiline_sections = 1 ∧
    (fixPipeline ((fixPipeline exIdem).1)).2.total = 1 ∧
    fixPipeline ((fixPipeline ((fixPipeline exIdem).1)).1) =
      ((fixPipeline ((fixPipeline exIdem).1)).1, zeroTally) := by
  decide

/-- C4 (counterexample): on `"/ === SECTION ===\n"` the tally does not
record the fix under `section_headers`: pattern 1 (`standalone_slashes`)
fires first and doubles the slash, so `section_headers` stays 0. -/
theorem c4_counterexample :
    ¬ ((fixPipeline exScenario1).1 = ("// === SECTION ===\n" : String).data ∧
      (fixPipeline exScenario1).2.section_headers = 1) := by
  decide

/-- C4 (amended): on `"/ === SECTION ===\n"` the output text is
`"// === SECTION ===\n"` and the tally records the single substitution
under `standalone_slashes` (count 1, total 1), with `section_headers` 0. -/
theorem c4_amended :
    (fixPipeline exScenario1).1 = ("// === SECTION ===\n" : String).data ∧
    (fixPipeline exScenario1).2.standalone_slashes = 1 ∧
    (fixPipeline exScenario1).2.section_headers = 0 ∧
    (fixPipeline exScenario1).2.total = 1 := by
  decide

/-- C5 (counterexample): on `"/ === \nTITLE\n// ===\n"` the trailing space
after the first divider is not preserved: the title-insertion rule's
replacement `\1\n// \2\n\3` drops the whitespace matched between group 1
and the newline, so the output is not `"// === \n// TITLE\n// ===\n"`. -/
theorem c5_counterexample :
    (fixPipeline exScenario2).1 ≠ ("// === \n// TITLE\n// ===\n" : String).data := by
  decide

/-- C5 (amended): on `"/ === \nTITLE\n// ===\n"` the output is
`"// ===\n// TITLE\n// ===\n"` (trailing space after the first divider
dropped) and the tally has exactly two distinct nonzero categories:
`standalone_slashes` 1 (the slash fix) and `multiline_sections` 1 (the
title insertion), total 2. -/
theorem c5_amended :
    (fixPipeline exScenario2).1 = ("// ===\n// TITLE\n// ===\n" : String).data ∧
    (fixPipeline exScenario2).2.standalone_slashes = 1 ∧
    (fixPipeline exScenario2).2.multiline_sections = 1 ∧
    (fixPipeline exScenario2).2.total = 2 := by
  decide

/-- C6 (counterexample): `fix_file` does not iterate the full catalog to a
fixed point (or a 3-iteration cap): on `"// ===\nTITLE\n===\n"` its single
catalog application returns a text on which another application would still
substitute, so it differs from the spec-modelled convergence driver. -/
theorem c6_counterexample :
    (fixPipeline exIdem).1 ≠ (normalizeDriver exIdem).1 := by
  decide

/-- C8 (counterexample): pattern 2 (title insertion) is not locally
idempotent.  On `"// ===\nAAAAAA\n// ===\nBBBBBB\n// ===\n"` the first
application rewrites only the first divider/title/divider group (scanning
resumes after the consumed middle divider), and a second application then
matches the group formed by the middle divider, `BBBBBB` and the last
divider, performing one more substitution. -/
theorem c8_counterexample :
    pattern2 ((pattern2 exPattern2).1) ≠ ((pattern2 exPattern2).1, 0) := by
  decide

/-- C2: a failing read does not produce the documented
`(path, False, all-zero tally)` outcome.  The `except` handler of
`fix_file` evaluates `fix_counts.keys()` although `fix_counts` is assigned
only after the read, so the handler itself raises `UnboundLocalError` and
the exception escapes; in `process_directory` the re-raise from
`future.result()` aborts the batch, so the sibling file (path 1) is never
reported. -/
theorem c2_read_failure_bug :
    (fixFile false none (fun _ => none) 0).2 = PyOutcome.raisedUnboundLocal ∧
    processDirectory false fsC2 [0, 1] = Except.error () := by
  constructor
  · rfl
  · rfl

/-- C3 (counterexample): the write is not atomic.  With the one-file system
`fsC3` (path 0 holds `"/x\n"`, which the pipeline changes), a failure
injected right after the truncating `open(file_path, 'w')` leaves the file
empty rather than holding its pre-run content. -/
theorem c3_counterexample :
    (fixFile false (some 0) fsC3 0).1 0 ≠ some exOldContent := by
  decide

/-- C3 (amended): the write of `fix_file` truncates in place (`open` with
mode `'w'`, then `write`).  A failure after `k` characters leaves the file
holding the first `k` characters of the NEW content — a prefix, not the
original bytes — and the exception handler returns
`(path, False, zero tally)` with the error recorded. -/
theorem c3_amended (fs : FS) (p : FPath) (content : List Char) (k : Nat)
    (h1 : fs p = some content) (h2 : (fixPipeline content).1 ≠ content) :
    (fixFile false (some k) fs p).1 p = some (((fixPipeline content).1).take k) ∧
    (fixFile false (some k) fs p).2 = PyOutcome.ok false zeroTally true := by
  unfold fixFile
  rw [h1]
  dsimp only
  rw [if_neg h2]
  constructor
  · simp [fsUpdate]
  · rfl

/-- C3 (witness): the amended statement at the concrete file system `fsC3`,
path 0, crash point 1. -/
theorem c3_witness :
    (fixFile false (some 1) fsC3 0).1 0 = some (((fixPipeline exOldContent).1).take 1) ∧
    (fixFile false (some 1) fsC3 0).2 = PyOutcome.ok false zeroTally true :=
  c3_amended fsC3 0 exOldContent 1 (by decide) (by decide)

/-- C6 (amended): `fix_file` applies the full catalog exactly once per call
(pattern 1 twice and pattern 6 three times, in the fixed order, with no
zero-substitution early exit), the second pattern-1 application always
contributes zero, and the returned `total` is the sum of the per-category
counts. -/
theorem c6_amended (cs : List Char) :
    (fixPipeline cs).1 =
      (pattern6 ((pattern6 ((pattern6 ((pattern5 ((pattern4 ((pattern3
        ((pattern2 ((pattern1 ((pattern1 cs).1)).1)).1)).1)).1)).1)).1)).1)).1 ∧
    (fixPipeline cs).2.standalone_slashes =
      (pattern1 cs).2 + (pattern1 ((pattern1 cs).1)).2 ∧
    (pattern1 ((pattern1 cs).1)).2 = 0 ∧
    (fixPipeline cs).2.total =
      (fixPipeline cs).2.section_headers + (fixPipeline cs).2.section_titles +
      (fixPipeline cs).2.object_comments + (fixPipeline cs).2.naked_headers +
      (fixPipeline cs).2.section_dividers + (fixPipeline cs).2.multiline_sections +
      (fixPipeline cs).2.mixed_slash_headers +
      (fixPipeline cs).2.standalone_slashes := by
  refine ⟨?_, rfl, ?_, fixPipeline_total cs⟩
  · conv_lhs => rw [fixPipeline.eq_def]
  · rw [pattern1_idem cs]

/-- C7: in preview (dry-run) mode no write ever happens: for every file
system, path and injected write-failure point, `fix_file` leaves the file
system unchanged, its outcome is exactly the outcome of the failure-free
run, and no write-error outcome can be produced; the force-mode block
behaves the same way. -/
theorem c7_dry_run_frame (fs : FS) (p : FPath) (crash : Option Nat) :
    (fixFile true crash fs p).1 = fs ∧
    (fixFile true crash fs p).2 = (fixFile true none fs p).2 ∧
    (∀ (w : Bool) (t : FixTally),
      (fixFile true crash fs p).2 ≠ PyOutcome.ok w t true) ∧
    (forceMode true crash fs p).1 = fs ∧
    (forceMode true crash fs p).2 = (forceMode true none fs p).2 := by
  refine ⟨?_, ?_, ?_, ?_, ?_⟩
  · rw [fixFile_dry]
  · rw [fixFile_dry]
  · intro w t
    rw [fixFile_dry]
    exact fixFile_dry_no_write_error fs p w t
  · rw [forceMode_dry]
  · rw [forceMode_dry]

/-- C8 (amended): patterns 1, 3, 4, 5 and 6 are each locally idempotent —
a second direct application returns the same text and makes zero
substitutions — but pattern 2 is not (see the counterexample). -/
theorem c8_amended (cs : List Char) :
    pattern1 ((pattern1 cs).1) = ((pattern1 cs).1, 0) ∧
    pattern3 ((pattern3 cs).1) = ((pattern3 cs).1, 0) ∧
    pattern4 ((pattern4 cs).1) = ((pattern4 cs).1, 0) ∧
    pattern5 ((pattern5 cs).1) = ((pattern5 cs).1, 0) ∧
    pattern6 ((pattern6 cs).1) = ((pattern6 cs).1, 0) :=
  ⟨pattern1_idem cs, pattern3_idem cs, pattern4_idem cs, pattern5_idem cs,
    pattern6_idem true cs⟩

/-- C9: in force mode, a line starting with a single slash (not already
doubled) gets exactly one extra leading slash, and a line already starting
with a doubled slash is left unchanged. -/
theorem c9_force_lines (cs : List Char) (i : Nat) (l : List Char)
    (h : (splitNl cs)[i]? = some l) :
    (singleSlashLine l = true →
      (splitNl (forceTransform cs).1)[i]? = some ('/' :: l)) ∧
    (doubleSlashLine l = true →
      (splitNl (forceTransform cs).1)[i]? = some l) := by
  constructor
  · intro hs
    rw [forceTransform_lines, List.getElem?_map, h]
    simp [hs]
  · intro hd
    rw [forceTransform_lines, List.getElem?_map, h]
    simp [doubleSlashLine_not_single hd]

/-- C9 (witness): on `"/a\n//b"` force mode turns line 0 `"/a"` into
`"//a"` and leaves line 1 `"//b"` unchanged. -/
theorem c9_witness :
    (splitNl (forceTransform exForce).1)[0]? = some ('/' :: '/' :: 'a' :: []) ∧
    (splitNl (forceTransform exForce).1)[1]? = some ('/' :: '/' :: 'b' :: []) := by
  constructor
  · exact (c9_force_lines exForce 0 ('/' :: 'a' :: []) (by decide)).1 (by decide)
  · exact (c9_force_lines exForce 1 ('/' :: '/' :: 'b' :: []) (by decide)).2 (by decide)

/-- C10: every tally in an `ok` outcome of `fix_file` has its `total` field
equal to the sum of the eight category fields (the tally always carries
exactly the nine fixed keys of the modelled `fix_counts` dictionary, each a
natural number). -/
theorem c10_tally_shape (d : Bool) (crash : Option Nat) (fs : FS) (p : FPath)
    (w : Bool) (t : FixTally) (e : Bool)
    (h : (fixFile d crash fs p).2 = PyOutcome.ok w t e) :
    t.total = t.section_headers + t.section_titles + t.object_comments +
      t.naked_headers + t.section_dividers + t.multiline_sections +
      t.mixed_slash_headers + t.standalone_slashes := by
  unfold fixFile at h
  cases hfs : fs p with
  | none =>
    rw [hfs] at h
    exact absurd h (by simp)
  | some content =>
    rw [hfs] at h
    dsimp only at h
    split at h
    · simp only [PyOutcome.ok.injEq] at h
      obtain ⟨-, rfl, -⟩ := h
      exact zeroTally_total
    · split at h
      · simp only [PyOutcome.ok.injEq] at h
        obtain ⟨-, rfl, -⟩ := h
        exact fixPipeline_total content
      · cases crash with
        | none =>
          simp only [PyOutcome.ok.injEq] at h
          obtain ⟨-, rfl, -⟩ := h
          exact fixPipeline_total content
        | some k =>
          simp only [PyOutcome.ok.injEq] at h
          obtain ⟨-, rfl, -⟩ := h
          exact zeroTally_total

/-- C10 (witness): the tally shape at the concrete one-file system `fsC10`
whose file is empty (outcome `ok false zeroTally false`). -/
theorem c10_witness :
    zeroTally.total = zeroTally.section_headers + zeroTally.section_titles +
      zeroTally.object_comments + zeroTally.naked_headers +
      zeroTally.section_dividers + zeroTally.multiline_sections +
      zeroTally.mixed_slash_headers + zeroTally.standalone_slashes :=
  c10_tally_shape false none fsC10 0 false zeroTally false (by decide)
